import Mathlib

/-!
Shallow embedding of the GULP scraper's project-manager component
(src/backend/project_manager.py): identity resolution, cross-run
deduplication, freshness partitioning, archive maintenance, and the
filtered/scored/paginated query engine, together with proofs of the
specification's claims about them.

Python strings are modelled as Lean `String`s whose operations are
implemented structurally over the underlying character list (so that all
definitions evaluate inside the kernel).  Python `dict` records are
modelled as a structure of optional fields (absent key = `none`); the
Python truthiness test `if not x:` on a string-valued field is the test
"absent or empty".  Timestamps are integers (seconds); the three
stdlib date parsers of the parsing cascade are parameters of the model.
Flat files are modelled by an `FS` record where each file is absent,
corrupt (unparseable JSON), or parsed content.
-/

namespace Gulp

/-- Python str.lower(), character-wise (ASCII case mapping). -/
def lowerStr (s : String) : String := ⟨s.data.map Char.toLower⟩

/-- Python s.replace(" ", "_"): the pattern is a single character, so the
replacement is character-wise. -/
def replaceSpaces (s : String) : String :=
  ⟨s.data.map (fun c => if c = ' ' then '_' else c)⟩

/-- Python s[:n] (code-point prefix). -/
def takeStr (s : String) (n : Nat) : String := ⟨s.data.take n⟩

/-- Truthiness of Python s.strip(): the string has a non-whitespace character. -/
def hasNonWs (s : String) : Bool := s.data.any (fun c => !c.isWhitespace)

/-- Helper for pySplit: accumulates the current token (reversed). -/
def splitWsAux : List Char → List Char → List String
  | [], acc => if acc.isEmpty then [] else [⟨acc.reverse⟩]
  | c :: cs, acc =>
    if c.isWhitespace then
      if acc.isEmpty then splitWsAux cs [] else ⟨acc.reverse⟩ :: splitWsAux cs []
    else splitWsAux cs (c :: acc)

/-- Python str.split() with no arguments: split on whitespace runs, no empty tokens. -/
def pySplit (s : String) : List String := splitWsAux s.data []

/-- Boolean list-prefix test on characters. -/
def listPrefixB : List Char → List Char → Bool
  | [], _ => true
  | _ :: _, [] => false
  | a :: as, b :: bs => a == b && listPrefixB as bs

/-- Boolean contiguous-infix test on characters. -/
def listInfixB (n : List Char) : List Char → Bool
  | [] => n.isEmpty
  | c :: cs => listPrefixB n (c :: cs) || listInfixB n cs

/-- Python "needle in hay" on strings: contiguous substring test. -/
def substrB (needle hay : String) : Bool := listInfixB needle.data hay.data

/-- Python " ".join(l). -/
def joinSpace : List String → String
  | [] => ""
  | [s] => s
  | s :: rest => s ++ " " ++ joinSpace rest

/-- The skills field of a record: a JSON array of strings or a single string
(both shapes occur in the data and both are supported by the code). -/
inductive Skills where
  | ofList : List String → Skills
  | ofStr : String → Skills
deriving DecidableEq, Repr

/-- One scraped project record.  Fields are read defensively in the source
(dict.get with defaults), hence every field is optional here; an absent key
is `none`. -/
structure Record where
  id : Option String := none
  title : Option String := none
  company : Option String := none
  companyName : Option String := none
  location : Option String := none
  description : Option String := none
  originalPublicationDate : Option String := none
  updated_at : Option String := none
  created_at : Option String := none
  skills : Option Skills := none
  remote : Option Bool := none
deriving DecidableEq, Repr

/-- project.get("id") coerced as in the Python truthiness test: both a missing
key and an empty string give "". -/
def Record.idKey (r : Record) : String := r.id.getD ""

/-- Synthetic ID derivation (project_manager.py lines 166-169):
f"{title}_{company}_{location}".replace(" ", "_")[:50]. -/
def syntheticId (r : Record) : String :=
  takeStr (replaceSpaces ((r.title.getD "") ++ "_" ++ (r.company.getD "") ++ "_"
    ++ (r.location.getD ""))) 50

/-- Modelled from the spec (section 4.1), for refinement comparison with
syntheticId: concatenate title, company and location, normalize whitespace to
underscores, lower-case, truncate to 50 characters. -/
def specSyntheticId (r : Record) : String :=
  takeStr (lowerStr ⟨((r.title.getD "") ++ "_" ++ (r.company.getD "") ++ "_"
    ++ (r.location.getD "")).data.map (fun c => if c.isWhitespace then '_' else c)⟩) 50

/-- ID resolution for one record (lines 162-171): keep a truthy id verbatim,
otherwise derive the synthetic id and write it back onto the record. -/
def resolveRecord (r : Record) : Record × String :=
  if r.idKey = "" then ({ r with id := some (syntheticId r) }, syntheticId r)
  else (r, r.idKey)

/-- The deduplication loop of process_projects (lines 152-187): one pass over
the input threading the intra-batch seen set and the cross-run known-ID set;
returns (unique, new, updated known IDs).  The Python known set is modelled as
a list used only through membership. -/
def processAux (seen known : List String) : List Record → List Record × List Record × List String
  | [] => ([], [], known)
  | r :: rs =>
    let r2 := (resolveRecord r).1
    let pid := (resolveRecord r).2
    if pid ∈ seen then processAux seen known rs
    else if pid ∈ known then
      let rest := processAux (pid :: seen) known rs
      (r2 :: rest.1, rest.2.1, rest.2.2)
    else
      let rest := processAux (pid :: seen) (pid :: known) rs
      (r2 :: rest.1, r2 :: rest.2.1, rest.2.2)

/-- process_projects' pure core: given the persisted known-ID history and the
scraped batch, return (unique, new, updated known IDs). -/
def processProjects (known : List String) (projects : List Record) :
    List Record × List Record × List String :=
  processAux [] known projects

/-- The three stdlib date parsers of the parsing cascade
(datetime.fromisoformat, strptime "%Y-%m-%dT%H:%M:%S.%f", strptime "%Y-%m-%d"),
as abstract parameters returning a timestamp in seconds, plus the current time. -/
structure DateEnv where
  p1 : String → Option Int
  p2 : String → Option Int
  p3 : String → Option Int
  now : Int

/-- First truthy value of a Python or-chain over optional strings. -/
def firstTruthy : List (Option String) → Option String
  | [] => none
  | o :: os =>
    match o with
    | some s => if s = "" then firstTruthy os else some s
    | none => firstTruthy os

/-- Line 218: originalPublicationDate or updated_at or created_at. -/
def locateTs (r : Record) : Option String :=
  firstTruthy [r.originalPublicationDate, r.updated_at, r.created_at]

/-- Freshness test of the partition loop (lines 218-258), true = recent:
no date field means recent; otherwise the parser cascade falls back to the
current time; a future timestamp is recent; a timestamp less than 24 hours
old is recent. -/
def isRecentB (env : DateEnv) (r : Record) : Bool :=
  match locateTs r with
  | none => true
  | some s =>
    let t := (((env.p1 s).orElse (fun _ => env.p2 s)).orElse (fun _ => env.p3 s)).getD env.now
    if env.now < t then true
    else decide (env.now - t < 24 * 60 * 60)

/-- The recent/archive split of process_projects (lines 215-262): recent
records are kept; a stale record enters the archive delta only if its id is
not already present in the pre-existing archive's id set. -/
def splitRecentArchive (cl : Record → Bool) (archiveIds : List String) :
    List Record → List Record × List Record
  | [] => ([], [])
  | r :: rs =>
    let rest := splitRecentArchive cl archiveIds rs
    if cl r then (r :: rest.1, rest.2)
    else if r.idKey ∈ archiveIds then rest
    else (rest.1, r :: rest.2)

/-- Line 206: the set of truthy ids of a persisted record list. -/
def nonemptyIds (l : List Record) : List String :=
  l.filterMap (fun r => if r.idKey = "" then none else some r.idKey)

/-- Lines 208-262: in the Render environment every record is treated as
recent and no archive delta is produced; otherwise the date-based split runs. -/
def partitionProjects (render : Bool) (env : DateEnv) (existingArchive : List Record)
    (unique : List Record) : List Record × List Record :=
  if render then (unique, [])
  else splitRecentArchive (isRecentB env) (nonemptyIds existingArchive) unique

/-- Association-list lookup for the insertion-ordered dict model. -/
def dlookup (k : String) : List (String × Record) → Option Record
  | [] => none
  | p :: m => if p.1 = k then some p.2 else dlookup k m

/-- Python dict assignment d[k] = v on an insertion-ordered dict: an existing
key keeps its position and gets the new value, a fresh key is appended. -/
def dictInsert (m : List (String × Record)) (k : String) (v : Record) :
    List (String × Record) :=
  if m.any (fun p => p.1 == k) then m.map (fun p => if p.1 == k then (k, v) else p)
  else m ++ [(k, v)]

/-- Lines 399-402: fold the records into a dict keyed by id, skipping records
whose id is falsy. -/
def buildDict (l : List Record) : List (String × Record) :=
  l.foldl (fun m r => if r.idKey = "" then m else dictInsert m r.idKey r) []

/-- The show_all source combination (lines 398-404): recent and archive
records merged through a dict keyed by id, then the dict's values. -/
def combineShowAll (recentL archiveL : List Record) : List Record :=
  (buildDict (recentL ++ archiveL)).map (fun p => p.2)

/-- search.lower().split() (line 435). -/
def searchTerms (search : String) : List String := pySplit (lowerStr search)

/-- Lines 461-471: the text the skills field contributes to the search,
already lower-cased; a missing field defaults to the empty list. -/
def skillsText : Option Skills → String
  | some (.ofList l) => joinSpace (l.map lowerStr)
  | some (.ofStr t) => lowerStr t
  | none => joinSpace ([] : List String)

/-- One field's contribution to the relevance score: weight w added once per
search term contained in the field text (lines 444-471). -/
def addFieldScore (w : Nat) (text : String) (terms : List String) (s : Nat) : Nat :=
  terms.foldl (fun acc t => if substrB t text then acc + w else acc) s

/-- Relevance score of one record (lines 439-471): +3 per term in the title,
+1 per term in the description, +2 per term in companyName, +3 per term in
the skills text. -/
def scoreRecord (terms : List String) (r : Record) : Nat :=
  addFieldScore 3 (skillsText r.skills) terms
    (addFieldScore 2 (lowerStr (r.companyName.getD "")) terms
      (addFieldScore 1 (lowerStr (r.description.getD "")) terms
        (addFieldScore 3 (lowerStr (r.title.getD "")) terms 0)))

/-- Insertion step of a stable descending sort on the score component:
keep walking while the head's score is strictly greater, so an element is
placed before every element of equal score that follows it. -/
def insertDesc (x : Record × Nat) : List (Record × Nat) → List (Record × Nat)
  | [] => [x]
  | y :: ys => if x.2 < y.2 then y :: insertDesc x ys else x :: y :: ys

/-- Stable descending sort on the score component, modelling Python's stable
list.sort(key=score, reverse=True) (line 478). -/
def sortDesc : List (Record × Nat) → List (Record × Nat)
  | [] => []
  | x :: xs => insertDesc x (sortDesc xs)

/-- Truthiness guard "if search and search.strip():" (line 434). -/
def searchActive (s : String) : Bool := s != "" && hasNonWs s

/-- The free-text search stage (lines 434-481): when the query is active,
score every record, keep the positively scored ones with their scores, sort
stably by descending score and drop the scores. -/
def searchFilter (search : String) (l : List Record) : List Record :=
  if searchActive search then
    let terms := searchTerms search
    let scored := l.filterMap (fun r =>
      let s := scoreRecord terms r
      if 0 < s then some (r, s) else none)
    (sortDesc scored).map (fun p => p.1)
  else l

/-- The location filter (lines 484-487): case-insensitive substring match,
active under the same truthiness guard as search. -/
def locationFilter (loc : Option String) (l : List Record) : List Record :=
  match loc with
  | none => l
  | some s =>
    if s != "" && hasNonWs s then
      l.filter (fun p => substrB (lowerStr s) (lowerStr (p.location.getD "")))
    else l

/-- The remote filter (lines 490-492): exact equality against the field,
with a missing field (Python None) never equal to the boolean argument. -/
def remoteFilter (rem : Option Bool) (l : List Record) : List Record :=
  match rem with
  | none => l
  | some b => l.filter (fun p => p.remote == some b)

/-- Python list slicing l[start:stop] with possibly negative int indices. -/
def pySlice (l : List Record) (start stop : Int) : List Record :=
  let n : Int := l.length
  let clamp : Int → Nat := fun i => if i < 0 then (max 0 (n + i)).toNat else (min i n).toNat
  ((l.take (clamp stop)).drop (clamp start))

/-- Pagination (lines 495-500): the total is the filtered count before
slicing; the slice is [(page-1)*limit : (page-1)*limit + limit]. -/
def paginate (page limit : Int) (l : List Record) : List Record × Nat :=
  (pySlice l ((page - 1) * limit) ((page - 1) * limit + limit), l.length)

/-- The persisted history file: last scan time, known project ids, count. -/
structure History where
  lastScan : Option Int := none
  knownIds : List String := []
  total : Nat := 0
deriving DecidableEq, Repr

/-- The flat-file state.  Each file is absent (none), present but corrupt
(some none), or present with parsed content (some (some c)). -/
structure FS where
  raw : Option (Option (List Record)) := none
  recent : Option (Option (List Record)) := none
  archive : Option (Option (List Record)) := none
  history : Option (Option History) := none
  newProjects : Option (Option (List Record)) := none
deriving DecidableEq, Repr

/-- _load_archive_projects (lines 87-96): missing or corrupt gives []. -/
def loadArchive (fs : FS) : List Record :=
  match fs.archive with
  | some (some l) => l
  | _ => []

/-- _load_history (lines 48-65): missing or corrupt gives the default. -/
def loadHistory (fs : FS) : History :=
  match fs.history with
  | some (some h) => h
  | _ => {}

/-- get_new_projects (lines 282-291): missing or corrupt gives []. -/
def loadNew (fs : FS) : List Record :=
  match fs.newProjects with
  | some (some l) => l
  | _ => []

/-- process_projects (lines 121-280) including its persistence side effects:
dedup against history, persist history and the new-only partition, split into
recent/archive, append the archive delta (only when nonempty), overwrite the
recent partition and the raw file.  Returns ((unique, new), updated files). -/
def processFS (render : Bool) (env : DateEnv) (fs : FS) (projects : List Record) :
    (List Record × List Record) × FS :=
  let hist := loadHistory fs
  let res := processAux [] hist.knownIds projects
  let unique := res.1
  let newP := res.2.1
  let known2 := res.2.2
  let existingArchive := loadArchive fs
  let parts := partitionProjects render env existingArchive unique
  let fs2 : FS :=
    { fs with
      history := some (some { lastScan := some env.now, knownIds := known2,
                              total := known2.length }),
      newProjects := some (some newP),
      archive := if parts.2.isEmpty then fs.archive
                 else some (some (existingArchive ++ parts.2)),
      recent := some (some parts.1),
      raw := some (some unique) }
  ((unique, newP), fs2)

/-- The query arguments of get_projects with their source defaults. -/
structure QueryArgs where
  page : Int := 1
  limit : Int := 10
  search : Option String := none
  location : Option String := none
  remote : Option Bool := none
  archived : Bool := false
  include_new_only : Bool := false
  show_all : Bool := false
  force_reprocess : Bool := false
deriving DecidableEq, Repr

/-- The body of get_projects inside its outer try (lines 342-502); an error
models an uncaught Python exception reaching the outer handler.

The Render branch (lines 348-365) sits in an inner try: when the raw file
parses it may reprocess, after which the return statement calls
_apply_filters_and_pagination, a method that is defined nowhere on
ProjectManager, so that path raises AttributeError into the inner handler and
falls through with only the reprocessing side effect; a corrupt raw file
raises json errors into the same handler with no side effect.

The reprocess branch (lines 369-378) is likewise inner-guarded.  Loading the
recent partition in the plain branch (line 421) is NOT guarded: a corrupt
recent file raises out of the body. -/
def getProjectsBody (render : Bool) (env : DateEnv) (a : QueryArgs) (fs0 : FS) :
    Except String (List Record × Nat) :=
  let fs1 :=
    if render then
      match fs0.raw with
      | some (some rawP) =>
        if a.force_reprocess || !(fs0.recent.isSome && fs0.archive.isSome) then
          (processFS render env fs0 rawP).2
        else fs0
      | _ => fs0
    else fs0
  let fs2 :=
    if a.force_reprocess || (fs1.raw.isSome && (!fs1.recent.isSome || !fs1.archive.isSome)) then
      match fs1.raw with
      | some (some rawP) => (processFS render env fs1 rawP).2
      | _ => fs1
    else fs1
  let sourced : Except String (List Record) :=
    if a.show_all then
      let archiveP := loadArchive fs2
      let recentP :=
        match fs2.recent with
        | some (some l) => l
        | _ => []
      let combined := combineShowAll recentP archiveP
      Except.ok
        (if combined.isEmpty && fs2.raw.isSome then
          match fs2.raw with
          | some (some rawP) => rawP
          | _ => combined
        else combined)
    else if a.archived then Except.ok (loadArchive fs2)
    else
      match fs2.recent with
      | none => Except.ok []
      | some (some l) => Except.ok l
      | some none => Except.error "json.decoder.JSONDecodeError"
  match sourced with
  | Except.error e => Except.error e
  | Except.ok projects =>
    let f1 :=
      if a.include_new_only && !a.archived then
        let newIds := (loadNew fs2).map (fun p => p.id)
        projects.filter (fun p => p.id ∈ newIds)
      else projects
    let f2 := match a.search with
      | none => f1
      | some s => searchFilter s f1
    let f3 := locationFilter a.location f2
    let f4 := remoteFilter a.remote f3
    Except.ok (paginate a.page a.limit f4)

/-- get_projects with its outer exception handler (lines 341 and 504-506):
any uncaught failure of the body becomes ([], 0). -/
def get_projects (render : Bool) (env : DateEnv) (a : QueryArgs) (fs : FS) :
    List Record × Nat :=
  match getProjectsBody render env a fs with
  | Except.ok res => res
  | Except.error _ => ([], 0)

/-! ### Lemmas about the deduplication loop -/

lemma resolveRecord_idKey (r : Record) : (resolveRecord r).1.idKey = (resolveRecord r).2 := by
  unfold resolveRecord
  split
  · simp [Record.idKey]
  · rfl

lemma processAux_nodup_disjoint (ps : List Record) : ∀ seen known : List String,
    ((processAux seen known ps).1.map Record.idKey).Nodup ∧
    ∀ s ∈ (processAux seen known ps).1.map Record.idKey, s ∉ seen := by
  induction ps with
  | nil => intro seen known; simp [processAux]
  | cons r rs ih =>
    intro seen known
    simp only [processAux]
    by_cases h1 : (resolveRecord r).2 ∈ seen
    · rw [if_pos h1]; exact ih seen known
    · rw [if_neg h1]
      by_cases h2 : (resolveRecord r).2 ∈ known
      · rw [if_pos h2]
        obtain ⟨hnd, hdis⟩ := ih ((resolveRecord r).2 :: seen) known
        refine ⟨?_, ?_⟩
        · simp only [List.map_cons, List.nodup_cons, resolveRecord_idKey]
          exact ⟨fun hmem => (hdis _ hmem) (List.mem_cons_self _ _), hnd⟩
        · simp only [List.map_cons, List.mem_cons, resolveRecord_idKey]
          rintro s (rfl | hs)
          · exact h1
          · exact fun hseen => (hdis s hs) (List.mem_cons_of_mem _ hseen)
      · rw [if_neg h2]
        obtain ⟨hnd, hdis⟩ := ih ((resolveRecord r).2 :: seen) ((resolveRecord r).2 :: known)
        refine ⟨?_, ?_⟩
        · simp only [List.map_cons, List.nodup_cons, resolveRecord_idKey]
          exact ⟨fun hmem => (hdis _ hmem) (List.mem_cons_self _ _), hnd⟩
        · simp only [List.map_cons, List.mem_cons, resolveRecord_idKey]
          rintro s (rfl | hs)
          · exact h1
          · exact fun hseen => (hdis s hs) (List.mem_cons_of_mem _ hseen)

lemma processAux_new_subset (ps : List Record) : ∀ seen known : List String, ∀ r : Record,
    r ∈ (processAux seen known ps).2.1 → r ∈ (processAux seen known ps).1 := by
  induction ps with
  | nil => intro seen known r h; simp [processAux] at h
  | cons p rs ih =>
    intro seen known r
    simp only [processAux]
    by_cases h1 : (resolveRecord p).2 ∈ seen
    · rw [if_pos h1]; exact ih seen known r
    · rw [if_neg h1]
      by_cases h2 : (resolveRecord p).2 ∈ known
      · rw [if_pos h2]
        intro h
        exact List.mem_cons_of_mem _ (ih _ _ r h)
      · rw [if_neg h2]
        intro h
        rcases List.mem_cons.mp h with rfl | h
        · exact List.mem_cons_self _ _
        · exact List.mem_cons_of_mem _ (ih _ _ r h)

lemma processAux_fst_indep (ps : List Record) : ∀ seen known known' : List String,
    (processAux seen known ps).1 = (processAux seen known' ps).1 := by
  induction ps with
  | nil => intro seen known known'; simp [processAux]
  | cons p rs ih =>
    intro seen known known'
    simp only [processAux]
    by_cases h1 : (resolveRecord p).2 ∈ seen
    · rw [if_pos h1, if_pos h1]; exact ih seen known known'
    · rw [if_neg h1, if_neg h1]
      by_cases h2 : (resolveRecord p).2 ∈ known <;>
        by_cases h3 : (resolveRecord p).2 ∈ known' <;>
        simp only [if_pos, if_neg, h2, h3, if_true, if_false] <;>
        exact congrArg _ (ih _ _ _)

lemma processAux_known_mono (ps : List Record) : ∀ seen known : List String, ∀ s : String,
    s ∈ known → s ∈ (processAux seen known ps).2.2 := by
  induction ps with
  | nil => intro seen known s h; simpa [processAux] using h
  | cons p rs ih =>
    intro seen known s h
    simp only [processAux]
    by_cases h1 : (resolveRecord p).2 ∈ seen
    · rw [if_pos h1]; exact ih seen known s h
    · rw [if_neg h1]
      by_cases h2 : (resolveRecord p).2 ∈ known
      · rw [if_pos h2]; exact ih _ _ s h
      · rw [if_neg h2]; exact ih _ _ s (List.mem_cons_of_mem _ h)

lemma processAux_ids_known (ps : List Record) : ∀ seen known : List String, ∀ r : Record,
    r ∈ (processAux seen known ps).1 → r.idKey ∈ (processAux seen known ps).2.2 := by
  induction ps with
  | nil => intro seen known r h; simp [processAux] at h
  | cons p rs ih =>
    intro seen known r
    simp only [processAux]
    by_cases h1 : (resolveRecord p).2 ∈ seen
    · rw [if_pos h1]; exact ih seen known r
    · rw [if_neg h1]
      by_cases h2 : (resolveRecord p).2 ∈ known
      · rw [if_pos h2]
        intro h
        rcases List.mem_cons.mp h with rfl | h
        · rw [resolveRecord_idKey]
          exact processAux_known_mono rs _ _ _ h2
        · exact ih _ _ r h
      · rw [if_neg h2]
        intro h
        rcases List.mem_cons.mp h with rfl | h
        · rw [resolveRecord_idKey]
          exact processAux_known_mono rs _ _ _ (List.mem_cons_self _ _)
        · exact ih _ _ r h

lemma processAux_new_nil (ps : List Record) : ∀ seen known : List String,
    (∀ r ∈ (processAux seen known ps).1, r.idKey ∈ known) →
    (processAux seen known ps).2.1 = [] := by
  induction ps with
  | nil => intro seen known _; simp [processAux]
  | cons p rs ih =>
    intro seen known hall
    simp only [processAux] at hall ⊢
    by_cases h1 : (resolveRecord p).2 ∈ seen
    · rw [if_pos h1] at hall ⊢; exact ih seen known hall
    · rw [if_neg h1] at hall ⊢
      by_cases h2 : (resolveRecord p).2 ∈ known
      · rw [if_pos h2] at hall ⊢
        exact ih _ _ (fun r h => hall r (List.mem_cons_of_mem _ h))
      · rw [if_neg h2] at hall ⊢
        exfalso
        apply h2
        have hm := hall (resolveRecord p).1 (List.mem_cons_self _ _)
        rwa [resolveRecord_idKey] at hm

/-! ### Claim theorems C1 and C2 -/

/-- C1: for every input list of records, process_projects returns a pair
(unique, new) in which no two elements of unique share the same id after
synthetic-ID derivation, and every element of new is also an element of
unique. -/
theorem processProjects_unique_nodup_new_subset (known : List String) (ps : List Record) :
    ((processProjects known ps).1.map Record.idKey).Nodup ∧
    ∀ r ∈ (processProjects known ps).2.1, r ∈ (processProjects known ps).1 :=
  ⟨(processAux_nodup_disjoint ps [] known).1, processAux_new_subset ps [] known⟩

/-- C2: running process_projects a second time on the same batch, with the
known-ID history persisted by the first run, yields no new projects while
recomputing the same unique list. -/
theorem processProjects_second_run (known : List String) (ps : List Record) :
    (processProjects ((processProjects known ps).2.2) ps).2.1 = [] ∧
    (processProjects ((processProjects known ps).2.2) ps).1 = (processProjects known ps).1 := by
  constructor
  · apply processAux_new_nil
    intro r hr
    rw [processProjects, processAux_fst_indep ps [] _ known] at hr
    exact processAux_ids_known ps [] known r hr
  · exact processAux_fst_indep ps [] _ known

/-! ### Lemmas about the recent/archive split -/

lemma splitRecentArchive_snd_sublist (cl : Record → Bool) (ids : List String) :
    ∀ l : List Record, (splitRecentArchive cl ids l).2.Sublist l := by
  intro l
  induction l with
  | nil => simp [splitRecentArchive]
  | cons r rs ih =>
    simp only [splitRecentArchive]
    by_cases h1 : cl r
    · rw [if_pos h1]; exact ih.cons r
    · rw [if_neg h1]
      by_cases h2 : r.idKey ∈ ids
      · rw [if_pos h2]; exact ih.cons r
      · rw [if_neg h2]; exact ih.cons₂ r

lemma splitRecentArchive_snd_fresh (cl : Record → Bool) (ids : List String) :
    ∀ l : List Record, ∀ r ∈ (splitRecentArchive cl ids l).2, r.idKey ∉ ids := by
  intro l
  induction l with
  | nil => simp [splitRecentArchive]
  | cons p rs ih =>
    simp only [splitRecentArchive]
    by_cases h1 : cl p
    · rw [if_pos h1]; exact ih
    · rw [if_neg h1]
      by_cases h2 : p.idKey ∈ ids
      · rw [if_pos h2]; exact ih
      · rw [if_neg h2]
        intro r hr
        rcases List.mem_cons.mp hr with rfl | hr
        · exact h2
        · exact ih r hr

lemma splitRecentArchive_snd_stale (cl : Record → Bool) (ids : List String) :
    ∀ l : List Record, ∀ r ∈ (splitRecentArchive cl ids l).2, cl r = false := by
  intro l
  induction l with
  | nil => simp [splitRecentArchive]
  | cons p rs ih =>
    simp only [splitRecentArchive]
    by_cases h1 : cl p
    · rw [if_pos h1]; exact ih
    · rw [if_neg h1]
      by_cases h2 : p.idKey ∈ ids
      · rw [if_pos h2]; exact ih
      · rw [if_neg h2]
        intro r hr
        rcases List.mem_cons.mp hr with rfl | hr
        · exact Bool.eq_false_iff.mpr h1
        · exact ih r hr

lemma splitRecentArchive_fst_mem (cl : Record → Bool) (ids : List String) :
    ∀ l : List Record, ∀ r ∈ l, cl r = true → r ∈ (splitRecentArchive cl ids l).1 := by
  intro l
  induction l with
  | nil => simp
  | cons p rs ih =>
    intro r hr hcl
    simp only [splitRecentArchive]
    rcases List.mem_cons.mp hr with rfl | hr
    · rw [if_pos hcl]
      exact List.mem_cons_self _ _
    · by_cases h1 : cl p
      · rw [if_pos h1]; exact List.mem_cons_of_mem _ (ih r hr hcl)
      · rw [if_neg h1]
        by_cases h2 : p.idKey ∈ ids
        · rw [if_pos h2]; exact ih r hr hcl
        · rw [if_neg h2]; exact ih r hr hcl

lemma nonemptyIds_eq_filterMap_map (l : List Record) :
    nonemptyIds l = (l.map Record.idKey).filterMap (fun k => if k = "" then none else some k) := by
  rw [nonemptyIds, List.filterMap_map]
  rfl

lemma nonemptyIds_nodup {l : List Record} (h : (l.map Record.idKey).Nodup) :
    (nonemptyIds l).Nodup := by
  rw [nonemptyIds_eq_filterMap_map]
  refine List.Nodup.filterMap ?_ h
  intro a a' b hb hb'
  by_cases ha : a = "" <;> by_cases ha' : a' = "" <;> simp [ha, ha'] at hb hb'
  exact hb.trans hb'.symm

lemma mem_nonemptyIds {l : List Record} {k : String} :
    k ∈ nonemptyIds l ↔ ∃ r ∈ l, r.idKey = k ∧ k ≠ "" := by
  rw [nonemptyIds]
  simp only [List.mem_filterMap]
  constructor
  · rintro ⟨r, hr, hk⟩
    by_cases h : r.idKey = ""
    · simp [h] at hk
    · simp only [if_neg h] at hk
      obtain rfl := Option.some.inj hk
      exact ⟨r, hr, rfl, h⟩
  · rintro ⟨r, hr, rfl, hne⟩
    exact ⟨r, hr, by simp [hne]⟩

/-! ### Claim theorem C3 -/

/-- C3: every record added to the archive delta of a process_projects run has
an id absent from the pre-existing archive's id set, and consequently an
archive whose non-empty ids are duplicate-free stays duplicate-free after the
run appends its delta. -/
theorem processProjects_archive_fresh (render : Bool) (env : DateEnv)
    (known : List String) (ps existingArchive : List Record)
    (hA : (nonemptyIds existingArchive).Nodup) :
    (∀ r ∈ (partitionProjects render env existingArchive (processProjects known ps).1).2,
        r.idKey ∉ nonemptyIds existingArchive) ∧
    (nonemptyIds (existingArchive ++
        (partitionProjects render env existingArchive (processProjects known ps).1).2)).Nodup := by
  rcases hren : render with _ | _
  · have hfresh : ∀ r ∈ (partitionProjects false env existingArchive
        (processProjects known ps).1).2, r.idKey ∉ nonemptyIds existingArchive := by
      intro r hr
      exact splitRecentArchive_snd_fresh (isRecentB env) (nonemptyIds existingArchive) _ r hr
    refine ⟨hfresh, ?_⟩
    have hsub : (partitionProjects false env existingArchive
        (processProjects known ps).1).2.Sublist (processProjects known ps).1 :=
      splitRecentArchive_snd_sublist _ _ _
    have hdnodup : ((partitionProjects false env existingArchive
        (processProjects known ps).1).2.map Record.idKey).Nodup :=
      ((processAux_nodup_disjoint ps [] known).1).sublist (hsub.map Record.idKey)
    rw [nonemptyIds, List.filterMap_append, ← nonemptyIds, ← nonemptyIds]
    rw [List.nodup_append]
    refine ⟨hA, nonemptyIds_nodup hdnodup, ?_⟩
    intro k hk hk'
    rcases mem_nonemptyIds.mp hk' with ⟨r, hr, rfl, hne⟩
    exact hfresh r hr hk
  · simp only [partitionProjects, if_pos]
    constructor
    · intro r hr
      simp at hr
    · simpa using hA

/-! ### Claim theorem C7 -/

/-- C7: outside the forced-recent environment mode, a record whose located
timestamp string is rejected by all three parsers of the format cascade is
classified recent and never enters the archive delta. -/
theorem unparseableDate_recent (env : DateEnv) (archiveIds : List String)
    (unique : List Record) (r : Record) (ts : String)
    (hl : locateTs r = some ts)
    (h1 : env.p1 ts = none) (h2 : env.p2 ts = none) (h3 : env.p3 ts = none)
    (hmem : r ∈ unique) :
    r ∈ (splitRecentArchive (isRecentB env) archiveIds unique).1 ∧
    r ∉ (splitRecentArchive (isRecentB env) archiveIds unique).2 := by
  have hcl : isRecentB env r = true := by
    rw [isRecentB, hl]
    simp only [h1, h2, h3, Option.orElse, Option.getD_none]
    rw [if_neg (lt_irrefl env.now)]
    simp
  refine ⟨splitRecentArchive_fst_mem _ _ _ r hmem hcl, fun hc => ?_⟩
  have hfalse := splitRecentArchive_snd_stale (isRecentB env) archiveIds unique r hc
  rw [hcl] at hfalse
  exact Bool.noConfusion hfalse

/-! ### Claim theorems C5 (corrected) and C10 -/

/-- Concrete record used to refute the lower-casing part of the spec's
synthetic-ID description. -/
def recC5 : Record :=
  { title := some "Java Dev", company := some "ACME", location := some "Berlin" }

/-- C5 counterexample: on a record without an id, process_projects assigns
the synthetic id without lower-casing it, so the assigned id differs from the
spec's lower-cased formula. -/
theorem syntheticId_not_lowercased :
    (processProjects [] [recC5]).1 = [{ recC5 with id := some "Java_Dev_ACME_Berlin" }] ∧
    specSyntheticId recC5 = "java_dev_acme_berlin" ∧
    syntheticId recC5 ≠ specSyntheticId recC5 := by decide

/-- C5 (amended): for a record lacking a truthy id, the assigned synthetic id
is the concatenation of title, company and location joined by underscores,
with spaces replaced by underscores and truncated to at most 50 characters
(no lower-casing), and it is written back onto the record in the returned
unique list. -/
theorem syntheticId_formula (known : List String) (r : Record) (h : r.idKey = "") :
    (processProjects known [r]).1 =
      [{ r with id := some (takeStr (replaceSpaces ((r.title.getD "") ++ "_" ++
          (r.company.getD "") ++ "_" ++ (r.location.getD ""))) 50) }] := by
  have hres : resolveRecord r = ({ r with id := some (syntheticId r) }, syntheticId r) := by
    rw [resolveRecord, if_pos h]
  simp only [processProjects, processAux, hres, List.not_mem_nil, if_false]
  split <;> rfl

/-- C5 amended-claim witness at a concrete record. -/
theorem syntheticId_formula_witness :
    Record.idKey recC5 = "" ∧
    (processProjects [] [recC5]).1 =
      [{ recC5 with id := some (takeStr (replaceSpaces ((recC5.title.getD "") ++ "_" ++
          (recC5.company.getD "") ++ "_" ++ (recC5.location.getD ""))) 50) }] :=
  ⟨by decide, syntheticId_formula [] recC5 (by decide)⟩

/-- C10: for a record without a truthy id whose company name is stored only
under companyName, the synthetic id uses the empty string for the company
segment; id derivation ignores companyName entirely and search scoring
ignores company entirely. -/
theorem derivation_reads_company_scoring_reads_companyName (r : Record)
    (h : r.company = none) (c : Option String) (terms : List String) :
    syntheticId r = takeStr (replaceSpaces ((r.title.getD "") ++ "_" ++ "" ++ "_" ++
        (r.location.getD ""))) 50 ∧
    syntheticId { r with companyName := c } = syntheticId r ∧
    scoreRecord terms { r with company := c } = scoreRecord terms r := by
  refine ⟨?_, rfl, rfl⟩
  simp [syntheticId, h]

/-- Concrete record for the C10 witness. -/
def recC10 : Record :=
  { title := some "Dev", companyName := some "ACME Corp", location := some "HH" }

/-- C10 witness at a concrete record. -/
theorem derivation_reads_company_witness :
    recC10.company = none ∧
    (syntheticId recC10 = takeStr (replaceSpaces ((recC10.title.getD "") ++ "_" ++ "" ++ "_" ++
        (recC10.location.getD ""))) 50 ∧
    syntheticId { recC10 with companyName := some "Other" } = syntheticId recC10 ∧
    scoreRecord ["acme"] { recC10 with company := some "Other" } =
      scoreRecord ["acme"] recC10) :=
  ⟨by decide, derivation_reads_company_scoring_reads_companyName recC10 (by decide)
    (some "Other") ["acme"]⟩

/-! ### Concrete inputs for witnesses and counterexamples -/

/-- Date environment whose three parsers reject every string. -/
def env0 : DateEnv := ⟨fun _ => none, fun _ => none, fun _ => none, 0⟩

/-- Date environment that parses the string "2020-01-01" far in the past. -/
def envStale : DateEnv :=
  ⟨fun _ => none, fun _ => none, fun s => if s = "2020-01-01" then some (-200000) else none, 0⟩

/-- A record already sitting in the archive. -/
def recArch : Record := { id := some "a" }

/-- A stale record (publication far older than 24 hours). -/
def recStale : Record := { id := some "b", originalPublicationDate := some "2020-01-01" }

/-- C3 witness: a concrete run whose archive delta is nonempty. -/
theorem processProjects_archive_fresh_witness :
    (nonemptyIds [recArch]).Nodup ∧
    ((∀ r ∈ (partitionProjects false envStale [recArch] (processProjects [] [recStale]).1).2,
        r.idKey ∉ nonemptyIds [recArch]) ∧
    (nonemptyIds ([recArch] ++
        (partitionProjects false envStale [recArch] (processProjects [] [recStale]).1).2)).Nodup) :=
  ⟨by decide, processProjects_archive_fresh false envStale [] [recStale] [recArch] (by decide)⟩

/-- A record whose only date field is unparseable. -/
def recC7 : Record := { id := some "u1", originalPublicationDate := some "not a date" }

/-- C7 witness: the unparseable-date record lands in recent, not in the delta. -/
theorem unparseableDate_recent_witness :
    recC7 ∈ (splitRecentArchive (isRecentB env0) [] [recC7]).1 ∧
    recC7 ∉ (splitRecentArchive (isRecentB env0) [] [recC7]).2 :=
  unparseableDate_recent env0 [] [recC7] recC7 "not a date" (by decide) rfl rfl rfl (by decide)

/-! ### Lemmas about the insertion-ordered dict of the show_all merge -/

/-- Option choice preferring the first argument (specification device). -/
def optOr (a b : Option Record) : Option Record :=
  match a with
  | some x => some x
  | none => b

lemma optOr_some (a : Record) (b : Option Record) : optOr (some a) b = some a := rfl

lemma optOr_none (b : Option Record) : optOr none b = b := rfl

/-- Last element of the list whose idKey equals k, if any. -/
def lastWithKey (k : String) : List Record → Option Record
  | [] => none
  | r :: rs => optOr (lastWithKey k rs) (if r.idKey == k then some r else none)

lemma dlookup_map_ne (k : String) (v : Record) (k' : String) (h : k' ≠ k) :
    ∀ m : List (String × Record),
      dlookup k' (m.map (fun p => if p.1 == k then (k, v) else p)) = dlookup k' m := by
  intro m
  induction m with
  | nil => rfl
  | cons p m ih =>
    by_cases hp : p.1 = k
    · simp only [List.map_cons, if_pos (beq_iff_eq.mpr hp), dlookup]
      rw [if_neg (fun hkk => h hkk.symm), if_neg (fun hpp => h (hp ▸ hpp).symm)]
      exact ih
    · simp only [List.map_cons, if_neg (fun hb => hp (beq_iff_eq.mp hb)), dlookup]
      split
      · rfl
      · exact ih

lemma dlookup_map_eq (k : String) (v : Record) :
    ∀ m : List (String × Record), m.any (fun p => p.1 == k) = true →
      dlookup k (m.map (fun p => if p.1 == k then (k, v) else p)) = some v := by
  intro m
  induction m with
  | nil => intro h; simp at h
  | cons p m ih =>
    intro h
    by_cases hp : p.1 = k
    · simp only [List.map_cons, if_pos (beq_iff_eq.mpr hp), dlookup]
      simp
    · simp only [List.map_cons, if_neg (fun hb => hp (beq_iff_eq.mp hb)), dlookup,
        if_neg hp]
      apply ih
      simp only [List.any_cons, Bool.or_eq_true] at h
      rcases h with h | h
      · exact absurd (beq_iff_eq.mp h) hp
      · exact h

lemma dlookup_dictInsert (k : String) (v : Record) (k' : String) :
    ∀ m : List (String × Record),
      dlookup k' (dictInsert m k v) = if k' = k then some v else dlookup k' m := by
  intro m
  induction m with
  | nil =>
    simp only [dictInsert, List.any_nil, Bool.false_eq_true, if_false, List.nil_append, dlookup]
    by_cases h : k' = k
    · rw [if_pos h, if_pos h.symm]
    · rw [if_neg h, if_neg (fun hh => h hh.symm)]
  | cons p m ih =>
    by_cases hany : (p :: m).any (fun q => q.1 == k) = true
    · rw [dictInsert, if_pos hany]
      by_cases h : k' = k
      · subst h
        rw [if_pos rfl]
        exact dlookup_map_eq k' v (p :: m) hany
      · rw [if_neg h]
        exact dlookup_map_ne k v k' h (p :: m)
    · rw [dictInsert, if_neg hany]
      have hph : ¬(p.1 = k) := by
        intro hp
        exact hany (by simp [List.any_cons, hp])
      have hmany : ¬(m.any (fun q => q.1 == k) = true) := by
        intro hm
        exact hany (by simp [List.any_cons, hm])
      have hstep : (p :: m) ++ [(k, v)] = p :: dictInsert m k v := by
        rw [dictInsert, if_neg hmany, List.cons_append]
      rw [hstep]
      by_cases h : k' = k
      · subst h
        simp only [dlookup, if_neg (fun hp => hph hp), ih, if_pos rfl]
      · simp only [dlookup, ih, if_neg h]

lemma dlookup_buildDict (k : String) (hk : k ≠ "") :
    ∀ (rs : List Record) (m : List (String × Record)),
      dlookup k (rs.foldl (fun m r => if r.idKey = "" then m else dictInsert m r.idKey r) m) =
        optOr (lastWithKey k rs) (dlookup k m) := by
  intro rs
  induction rs with
  | nil => intro m; rfl
  | cons r rest ih =>
    intro m
    simp only [List.foldl_cons, lastWithKey]
    rw [ih]
    cases hlast : lastWithKey k rest with
    | some x => simp only [optOr_some]
    | none =>
      rw [optOr_none, optOr_none]
      by_cases hkey : r.idKey = k
      · have hne : ¬(r.idKey = "") := fun h0 => hk (hkey.symm.trans h0)
        rw [if_neg hne, dlookup_dictInsert, if_pos hkey.symm, if_pos (beq_iff_eq.mpr hkey),
          optOr_some]
      · rw [if_neg (fun hb => hkey (beq_iff_eq.mp hb)), optOr_none]
        by_cases h0 : r.idKey = ""
        · rw [if_pos h0]
        · rw [if_neg h0, dlookup_dictInsert, if_neg (fun hh => hkey hh.symm)]

/-- Invariant of the show_all dict: keys are the truthy idKeys of their
values, and keys are duplicate-free. -/
def DictInv (m : List (String × Record)) : Prop :=
  (∀ p ∈ m, p.1 = p.2.idKey ∧ p.1 ≠ "") ∧ (m.map (fun p => p.1)).Nodup

lemma dictInsert_inv {m : List (String × Record)} {k : String} {v : Record}
    (hm : DictInv m) (hkv : k = v.idKey) (hk : k ≠ "") : DictInv (dictInsert m k v) := by
  rw [dictInsert]
  by_cases hany : m.any (fun p => p.1 == k) = true
  · rw [if_pos hany]
    constructor
    · intro q hq
      rcases List.mem_map.mp hq with ⟨p, hp, rfl⟩
      by_cases hpk : p.1 = k
      · rw [if_pos (beq_iff_eq.mpr hpk)]
        exact ⟨hkv, hk⟩
      · rw [if_neg (fun hb => hpk (beq_iff_eq.mp hb))]
        exact hm.1 p hp
    · have hkeys : (m.map (fun p => if p.1 == k then (k, v) else p)).map (fun p => p.1) =
          m.map (fun p => p.1) := by
        rw [List.map_map]
        apply List.map_congr_left
        intro p _
        by_cases hpk : p.1 = k
        · simp [Function.comp, beq_iff_eq.mpr hpk, hpk]
        · simp [Function.comp, beq_iff_eq, hpk]
      rw [hkeys]
      exact hm.2
  · rw [if_neg hany]
    constructor
    · intro q hq
      rcases List.mem_append.mp hq with hq | hq
      · exact hm.1 q hq
      · rcases List.mem_singleton.mp hq with rfl
        exact ⟨hkv, hk⟩
    · rw [List.map_append]
      rw [List.nodup_append]
      refine ⟨hm.2, List.nodup_singleton _, ?_⟩
      intro a ha ha'
      rcases List.mem_singleton.mp ha' with rfl
      rcases List.mem_map.mp ha with ⟨p, hp, hpa⟩
      apply hany
      rw [List.any_eq_true]
      exact ⟨p, hp, beq_iff_eq.mpr hpa⟩

lemma buildDict_inv (l : List Record) : DictInv (buildDict l) := by
  rw [buildDict]
  have hgen : ∀ (rs : List Record) (m : List (String × Record)), DictInv m →
      DictInv (rs.foldl (fun m r => if r.idKey = "" then m else dictInsert m r.idKey r) m) := by
    intro rs
    induction rs with
    | nil => intro m hm; exact hm
    | cons r rest ih =>
      intro m hm
      rw [List.foldl_cons]
      by_cases h0 : r.idKey = ""
      · rw [if_pos h0]; exact ih m hm
      · rw [if_neg h0]; exact ih _ (dictInsert_inv hm rfl h0)
  exact hgen l [] ⟨by simp, by simp⟩

lemma dlookup_some_mem {k : String} {r : Record} :
    ∀ {m : List (String × Record)}, dlookup k m = some r → (k, r) ∈ m := by
  intro m
  induction m with
  | nil => intro h; exact absurd h (by simp [dlookup])
  | cons p m ih =>
    intro h
    rw [dlookup] at h
    by_cases hp : p.1 = k
    · rw [if_pos hp] at h
      have h2 := Option.some.inj h
      have hpe : (k, r) = p := by
        rw [← hp, ← h2]
      rw [hpe]
      exact List.mem_cons_self _ _
    · rw [if_neg hp] at h
      exact List.mem_cons_of_mem _ (ih h)

lemma mem_dlookup {k : String} {r : Record} :
    ∀ {m : List (String × Record)}, DictInv m → (k, r) ∈ m → dlookup k m = some r := by
  intro m
  induction m with
  | nil => intro _ h; simp at h
  | cons p m ih =>
    intro hinv h
    have hnd : (p.1 :: m.map (fun q => q.1)).Nodup := by
      have h2 := hinv.2
      rwa [List.map_cons] at h2
    rcases List.mem_cons.mp h with h | h
    · rw [dlookup, ← h]
      simp
    · have hk : k ∈ m.map (fun q => q.1) :=
        List.mem_map.mpr ⟨(k, r), h, rfl⟩
      have hp1 : ¬(p.1 = k) := fun hp => (List.nodup_cons.mp hnd).1 (by rw [hp]; exact hk)
      rw [dlookup, if_neg hp1]
      refine ih ⟨?_, (List.nodup_cons.mp hnd).2⟩ h
      intro q hq
      exact hinv.1 q (List.mem_cons_of_mem _ hq)

lemma lastWithKey_mem_key {k : String} :
    ∀ {l : List Record} {s : Record}, lastWithKey k l = some s → s ∈ l ∧ s.idKey = k := by
  intro l
  induction l with
  | nil => intro s h; exact absurd h (by simp [lastWithKey])
  | cons r rest ih =>
    intro s h
    rw [lastWithKey] at h
    cases hlast : lastWithKey k rest with
    | some x =>
      rw [hlast, optOr_some] at h
      obtain rfl := Option.some.inj h
      obtain ⟨hm, hk⟩ := ih hlast
      exact ⟨List.mem_cons_of_mem _ hm, hk⟩
    | none =>
      rw [hlast, optOr_none] at h
      by_cases hk : r.idKey = k
      · rw [if_pos (beq_iff_eq.mpr hk)] at h
        obtain rfl := Option.some.inj h
        exact ⟨List.mem_cons_self _ _, hk⟩
      · rw [if_neg (fun hb => hk (beq_iff_eq.mp hb))] at h
        exact absurd h (by simp)

lemma lastWithKey_isSome_of_mem {r : Record} :
    ∀ {l : List Record}, r ∈ l → ∃ s, lastWithKey r.idKey l = some s := by
  intro l
  induction l with
  | nil => intro h; simp at h
  | cons p rest ih =>
    intro h
    rw [lastWithKey]
    cases hlast : lastWithKey r.idKey rest with
    | some x => exact ⟨x, by rw [optOr_some]⟩
    | none =>
      rw [optOr_none]
      rcases List.mem_cons.mp h with rfl | h
      · exact ⟨r, by rw [if_pos (beq_iff_eq.mpr rfl)]⟩
      · obtain ⟨s, hs⟩ := ih h
        rw [hlast] at hs
        exact absurd hs (by simp)

/-! ### Claim theorems C4 (corrected) -/

/-- A record stored in the recent partition. -/
def recRecent : Record := { id := some "x", title := some "recent version" }

/-- A record with the same id stored in the archive partition. -/
def recArchived : Record := { id := some "x", title := some "archived version" }

/-- File state with one recent and one archived record sharing an id. -/
def fsC4 : FS := { recent := some (some [recRecent]), archive := some (some [recArchived]) }

/-- C4 counterexample: with show_all, a recent record and an archive record
sharing an id are merged with the ARCHIVE record winning, so the recent
record is absent from the result — the claimed recent-wins rule is false. -/
theorem showAll_recent_does_not_win :
    get_projects false env0 { show_all := true } fsC4 = ([recArchived], 1) ∧
    recRecent ∉ (get_projects false env0 { show_all := true } fsC4).1 ∧
    recRecent ≠ recArchived := by decide

/-- C4 (amended): the show_all source is the union of the recent and archive
partitions deduplicated by id (records without a truthy id are dropped), and
for each id the record kept is the LAST one with that id in recent ++ archive
— so when a recent record and an archive record share an id, the archive
record wins. -/
theorem showAll_union_dedup_archive_wins (recentP archiveP : List Record) :
    (∀ r ∈ combineShowAll recentP archiveP,
        r.idKey ≠ "" ∧ lastWithKey r.idKey (recentP ++ archiveP) = some r) ∧
    (∀ r ∈ recentP ++ archiveP, r.idKey ≠ "" →
        ∃ s ∈ combineShowAll recentP archiveP, s.idKey = r.idKey) ∧
    ((combineShowAll recentP archiveP).map Record.idKey).Nodup := by
  have hinv := buildDict_inv (recentP ++ archiveP)
  refine ⟨?_, ?_, ?_⟩
  · intro r hr
    rcases List.mem_map.mp hr with ⟨p, hp, rfl⟩
    obtain ⟨hkey, hne0⟩ := hinv.1 p hp
    have hne : p.2.idKey ≠ "" := hkey ▸ hne0
    have hlook : dlookup p.2.idKey (buildDict (recentP ++ archiveP)) = some p.2 := by
      apply mem_dlookup hinv
      have hpe : (p.2.idKey, p.2) = p := by
        rw [← hkey]
      rw [hpe]
      exact hp
    refine ⟨hne, ?_⟩
    rw [buildDict, dlookup_buildDict p.2.idKey hne (recentP ++ archiveP) []] at hlook
    cases hlast : lastWithKey p.2.idKey (recentP ++ archiveP) with
    | some x =>
      rw [hlast, optOr_some] at hlook
      exact hlook
    | none =>
      rw [hlast, optOr_none] at hlook
      exact absurd hlook (by simp [dlookup])
  · intro r hr hne
    obtain ⟨s, hs⟩ := lastWithKey_isSome_of_mem hr
    obtain ⟨hsm, hsk⟩ := lastWithKey_mem_key hs
    have hlook : dlookup r.idKey (buildDict (recentP ++ archiveP)) = some s := by
      rw [buildDict, dlookup_buildDict r.idKey hne (recentP ++ archiveP) [], hs, optOr_some]
    have hmem : (r.idKey, s) ∈ buildDict (recentP ++ archiveP) := dlookup_some_mem hlook
    exact ⟨s, List.mem_map.mpr ⟨(r.idKey, s), hmem, rfl⟩, hsk⟩
  · have hkeys : (combineShowAll recentP archiveP).map Record.idKey =
        (buildDict (recentP ++ archiveP)).map (fun p => p.1) := by
      rw [combineShowAll, List.map_map]
      apply List.map_congr_left
      intro p hp
      exact ((hinv.1 p hp).1).symm
    rw [hkeys]
    exact hinv.2

/-- C4 amended-claim witness: with the concrete shared-id pair, some record
carrying the shared id survives the merge. -/
theorem showAll_union_dedup_witness :
    ∃ s ∈ combineShowAll [recRecent] [recArchived], s.idKey = recArchived.idKey :=
  (showAll_union_dedup_archive_wins [recRecent] [recArchived]).2.1 recArchived
    (by decide) (by decide)

/-! ### Lemmas about the search scoring and the stable descending sort -/

lemma addFieldScore_eq (w : Nat) (text : String) (terms : List String) :
    ∀ s : Nat, addFieldScore w text terms s =
      s + w * terms.countP (fun t => substrB t text) := by
  induction terms with
  | nil => intro s; simp [addFieldScore]
  | cons t ts ih =>
    intro s
    rw [addFieldScore, List.foldl_cons]
    have hstep : addFieldScore w text ts (if substrB t text then s + w else s) =
        (if substrB t text then s + w else s) + w * ts.countP (fun u => substrB u text) :=
      ih _
    rw [addFieldScore] at hstep
    rw [hstep, List.countP_cons]
    by_cases h : substrB t text
    · simp only [if_pos h, h, if_true]
      ring
    · simp only [if_neg h, h, Bool.false_eq_true, if_false]
      ring

lemma scoreRecord_eq (terms : List String) (r : Record) :
    scoreRecord terms r =
      3 * terms.countP (fun t => substrB t (lowerStr (r.title.getD ""))) +
      2 * terms.countP (fun t => substrB t (lowerStr (r.companyName.getD ""))) +
      1 * terms.countP (fun t => substrB t (lowerStr (r.description.getD ""))) +
      3 * terms.countP (fun t => substrB t (skillsText r.skills)) := by
  rw [scoreRecord, addFieldScore_eq, addFieldScore_eq, addFieldScore_eq, addFieldScore_eq]
  ring

lemma insertDesc_perm (x : Record × Nat) :
    ∀ l : List (Record × Nat), (insertDesc x l).Perm (x :: l) := by
  intro l
  induction l with
  | nil => exact List.Perm.refl _
  | cons y ys ih =>
    rw [insertDesc]
    by_cases h : x.2 < y.2
    · rw [if_pos h]
      exact (ih.cons y).trans (List.Perm.swap x y ys)
    · rw [if_neg h]

lemma sortDesc_perm : ∀ l : List (Record × Nat), (sortDesc l).Perm l := by
  intro l
  induction l with
  | nil => exact List.Perm.refl _
  | cons x xs ih =>
    rw [sortDesc]
    exact (insertDesc_perm x (sortDesc xs)).trans (ih.cons x)

lemma insertDesc_sorted (x : Record × Nat) :
    ∀ l : List (Record × Nat), l.Sorted (fun a b => b.2 ≤ a.2) →
      (insertDesc x l).Sorted (fun a b => b.2 ≤ a.2) := by
  intro l
  induction l with
  | nil => intro _; simp [insertDesc]
  | cons y ys ih =>
    intro h
    rw [List.sorted_cons] at h
    rw [insertDesc]
    by_cases hlt : x.2 < y.2
    · rw [if_pos hlt]
      rw [List.sorted_cons]
      refine ⟨?_, ih h.2⟩
      intro z hz
      rcases List.mem_cons.mp ((insertDesc_perm x ys).mem_iff.mp hz) with rfl | hz
      · exact le_of_lt hlt
      · exact h.1 z hz
    · rw [if_neg hlt]
      rw [List.sorted_cons]
      refine ⟨?_, List.sorted_cons.mpr h⟩
      intro z hz
      rcases List.mem_cons.mp hz with rfl | hz
      · exact Nat.not_lt.mp hlt
      · exact le_trans (h.1 z hz) (Nat.not_lt.mp hlt)

lemma sortDesc_sorted : ∀ l : List (Record × Nat),
    (sortDesc l).Sorted (fun a b => b.2 ≤ a.2) := by
  intro l
  induction l with
  | nil => simp [sortDesc]
  | cons x xs ih =>
    rw [sortDesc]
    exact insertDesc_sorted x (sortDesc xs) ih

lemma filter_insertDesc (s : Nat) (x : Record × Nat) :
    ∀ l : List (Record × Nat),
      (insertDesc x l).filter (fun q => q.2 == s) =
        if x.2 == s then x :: l.filter (fun q => q.2 == s)
        else l.filter (fun q => q.2 == s) := by
  intro l
  induction l with
  | nil =>
    simp [insertDesc, List.filter_cons]
  | cons y ys ih =>
    rw [insertDesc]
    by_cases hlt : x.2 < y.2
    · rw [if_pos hlt]
      by_cases hx : x.2 = s
      · have hy : ¬(y.2 = s) := by omega
        simp [List.filter_cons, ih, beq_iff_eq, hx, hy]
      · simp [List.filter_cons, ih, beq_iff_eq, hx]
    · rw [if_neg hlt]
      simp [List.filter_cons]

lemma filter_sortDesc (s : Nat) : ∀ l : List (Record × Nat),
    (sortDesc l).filter (fun q => q.2 == s) = l.filter (fun q => q.2 == s) := by
  intro l
  induction l with
  | nil => rfl
  | cons x xs ih =>
    rw [sortDesc, filter_insertDesc, List.filter_cons]
    by_cases hx : x.2 = s
    · simp [beq_iff_eq, hx, ih]
    · simp [beq_iff_eq, hx, ih]

lemma map_fst_pair (s : Nat) : ∀ xs : List Record,
    (xs.map (fun r => (r, s))).map (fun p => p.1) = xs := by
  intro xs
  induction xs with
  | nil => rfl
  | cons a as iha => simp [iha]

lemma mem_scored {terms : List String} {l : List Record} {q : Record × Nat} :
    q ∈ l.filterMap (fun r =>
        if 0 < scoreRecord terms r then some (r, scoreRecord terms r) else none) →
      q.2 = scoreRecord terms q.1 ∧ 0 < q.2 ∧ q.1 ∈ l := by
  intro hq
  rcases List.mem_filterMap.mp hq with ⟨r, hr, hg⟩
  by_cases h : 0 < scoreRecord terms r
  · rw [if_pos h] at hg
    obtain rfl := Option.some.inj hg
    exact ⟨rfl, h, hr⟩
  · rw [if_neg h] at hg
    exact absurd hg (by simp)

lemma scored_mem {terms : List String} {l : List Record} {r : Record}
    (hr : r ∈ l) (h : 0 < scoreRecord terms r) :
    (r, scoreRecord terms r) ∈ l.filterMap (fun r =>
        if 0 < scoreRecord terms r then some (r, scoreRecord terms r) else none) :=
  List.mem_filterMap.mpr ⟨r, hr, by rw [if_pos h]⟩

lemma mem_searchFilter {search : String} {l : List Record} {r : Record}
    (hs : searchActive search = true) :
    r ∈ searchFilter search l ↔
      r ∈ l ∧ 0 < scoreRecord (searchTerms search) r := by
  rw [searchFilter, if_pos hs]
  constructor
  · intro hmem
    rcases List.mem_map.mp hmem with ⟨q, hq, rfl⟩
    have hq2 := (sortDesc_perm _).mem_iff.mp hq
    obtain ⟨_, hpos, hmem2⟩ := mem_scored hq2
    exact ⟨hmem2, by omega⟩
  · intro ⟨hmem, hpos⟩
    refine List.mem_map.mpr ⟨(r, scoreRecord (searchTerms search) r), ?_, rfl⟩
    exact (sortDesc_perm _).mem_iff.mpr (scored_mem hmem hpos)

lemma filter_scored {terms : List String} (s : Nat) (hs : 0 < s) :
    ∀ l : List Record,
      (l.filterMap (fun r =>
          if 0 < scoreRecord terms r then some (r, scoreRecord terms r) else none)).filter
        (fun q => q.2 == s) =
      (l.filter (fun r => scoreRecord terms r == s)).map (fun r => (r, s)) := by
  intro l
  induction l with
  | nil => rfl
  | cons r rest ih =>
    rw [List.filterMap_cons, List.filter_cons]
    by_cases hr : scoreRecord terms r = s
    · rw [if_pos (by omega), List.filter_cons, if_pos (by simpa using hr), hr,
        if_pos (by simp), List.map_cons, ih]
    · by_cases hp : 0 < scoreRecord terms r
      · rw [if_pos hp, List.filter_cons, if_neg (by simpa using hr),
          if_neg (by simpa using hr), ih]
      · rw [if_neg hp, if_neg (by simpa using hr), ih]

/-! ### Claim theorem C6 -/

/-- C6: the relevance score is +3 per term in the title, +2 per term in the
company name, +1 per term in the description and +3 per term in the skills
text; zero-scoring records are discarded; the rest are sorted by descending
score with ties kept in input order. -/
theorem searchFilter_spec (search : String) (l : List Record)
    (h : searchActive search = true) :
    (∀ r : Record, scoreRecord (searchTerms search) r =
        3 * (searchTerms search).countP (fun t => substrB t (lowerStr (r.title.getD ""))) +
        2 * (searchTerms search).countP (fun t => substrB t (lowerStr (r.companyName.getD ""))) +
        1 * (searchTerms search).countP (fun t => substrB t (lowerStr (r.description.getD ""))) +
        3 * (searchTerms search).countP (fun t => substrB t (skillsText r.skills))) ∧
    (∀ r : Record, r ∈ searchFilter search l ↔
        r ∈ l ∧ 0 < scoreRecord (searchTerms search) r) ∧
    (searchFilter search l).Sorted
      (fun a b => scoreRecord (searchTerms search) b ≤ scoreRecord (searchTerms search) a) ∧
    (∀ s : Nat, 0 < s →
      (searchFilter search l).filter (fun r => scoreRecord (searchTerms search) r == s) =
        l.filter (fun r => scoreRecord (searchTerms search) r == s)) := by
  refine ⟨fun r => scoreRecord_eq _ r, fun r => mem_searchFilter h, ?_, ?_⟩
  · rw [searchFilter, if_pos h]
    rw [List.Sorted, List.pairwise_map]
    refine List.Pairwise.imp_of_mem ?_ (sortDesc_sorted _)
    intro a b ha hb hle
    obtain ⟨ha2, _, _⟩ := mem_scored ((sortDesc_perm _).mem_iff.mp ha)
    obtain ⟨hb2, _, _⟩ := mem_scored ((sortDesc_perm _).mem_iff.mp hb)
    rw [← ha2, ← hb2]
    exact hle
  · intro s hs
    rw [searchFilter, if_pos h]
    rw [List.filter_map]
    have hcongr : (sortDesc (l.filterMap (fun r =>
          if 0 < scoreRecord (searchTerms search) r
          then some (r, scoreRecord (searchTerms search) r) else none))).filter
        ((fun r => scoreRecord (searchTerms search) r == s) ∘ (fun p => p.1)) =
        (sortDesc (l.filterMap (fun r =>
          if 0 < scoreRecord (searchTerms search) r
          then some (r, scoreRecord (searchTerms search) r) else none))).filter
        (fun q => q.2 == s) := by
      apply List.filter_congr
      intro q hq
      obtain ⟨hq2, _, _⟩ := mem_scored ((sortDesc_perm _).mem_iff.mp hq)
      simp only [Function.comp]
      rw [← hq2]
    rw [hcongr, filter_sortDesc, filter_scored s hs, map_fst_pair]

/-- Record matching the C6 witness query in its title. -/
def recW1 : Record := { id := some "w1", title := some "Java Developer" }

/-- Record matching the C6 witness query in its description only. -/
def recW2 : Record := { id := some "w2", description := some "a java shop" }

/-- C6 witness: the concrete result list is sorted by descending score. -/
theorem searchFilter_spec_witness :
    (searchFilter "java" [recW2, recW1]).Sorted
      (fun a b => scoreRecord (searchTerms "java") b ≤ scoreRecord (searchTerms "java") a) :=
  (searchFilter_spec "java" [recW2, recW1] (by decide)).2.2.1

/-! ### Claim theorems C8 (corrected) -/

/-- A record whose only occurrence of the search term is in its location. -/
def recLoc : Record :=
  { id := some "l1", title := some "Senior Dev", location := some "Berlin" }

/-- A record whose title contains the search term. -/
def recTitle : Record := { id := some "t1", title := some "Berlin Dev" }

/-- File state whose recent partition holds the two C8 records. -/
def fsC8 : FS := { recent := some (some [recLoc, recTitle]) }

/-- C8 counterexample: for search="berlin", the location-only record scores 0
and is discarded from the returned ordering entirely, so it does not rank
below the title match — it does not rank at all. -/
theorem locationOnly_not_ranked :
    get_projects false env0 { search := some "berlin" } fsC8 = ([recTitle], 1) ∧
    recLoc ∉ (get_projects false env0 { search := some "berlin" } fsC8).1 := by decide

/-- C8 (amended): a record whose scored fields (title, description,
companyName, skills) all lack the search terms scores 0 and is excluded from
the results, while a record whose title contains a term is returned; in
particular the location-only record never precedes the title match. -/
theorem zeroScore_excluded_positive_returned (search : String) (l : List Record)
    (a b : Record) (hs : searchActive search = true)
    (ha : scoreRecord (searchTerms search) a = 0)
    (hb : 0 < scoreRecord (searchTerms search) b) (hbl : b ∈ l) :
    a ∉ searchFilter search l ∧ b ∈ searchFilter search l := by
  constructor
  · intro hmem
    have hpos := ((mem_searchFilter hs).mp hmem).2
    omega
  · exact (mem_searchFilter hs).mpr ⟨hbl, hb⟩

/-- C8 amended-claim witness at the concrete pair of records. -/
theorem zeroScore_excluded_witness :
    recLoc ∉ searchFilter "berlin" [recLoc, recTitle] ∧
    recTitle ∈ searchFilter "berlin" [recLoc, recTitle] :=
  zeroScore_excluded_positive_returned "berlin" [recLoc, recTitle] recLoc recTitle
    (by decide) (by decide) (by decide) (by decide)

/-! ### Claim theorem C9 -/

/-- C9: whenever the body of get_projects raises, the outer handler turns the
call into ([], 0) instead of propagating the exception. -/
theorem get_projects_error_fallback (render : Bool) (env : DateEnv) (a : QueryArgs)
    (fs : FS) (e : String) (h : getProjectsBody render env a fs = Except.error e) :
    get_projects render env a fs = ([], 0) := by
  unfold get_projects
  rw [h]

/-- File state whose recent partition file exists but is corrupt, a state in
which the body of get_projects raises on line 421. -/
def fsC9 : FS := { recent := some none }

/-- C9 witness: a corrupt recent file makes the default query return ([], 0). -/
theorem get_projects_error_fallback_witness :
    get_projects false env0 {} fsC9 = ([], 0) :=
  get_projects_error_fallback false env0 {} fsC9 "json.decoder.JSONDecodeError" rfl

end Gulp
